import Mathlib

/-!
Verification of the AI-admin dialogue-orchestration platform.

Each definition is a shallow embedding of a function of the repository
(python), translated clause by clause; theorems settle the spec's claims
about those functions.
-/

namespace AIAdmin

/-! ## Session state machine (ai_agent/src/core/orchestrator.py) -/

/-- `SessionState` enum from ai_agent/src/models/session. -/
inductive SessionState where
  | INITIATED
  | GREETING
  | COLLECTING_INFO
  | CONSULTING
  | BOOKING
  | CONFIRMING
  | COMPLETED
  | FAILED
deriving DecidableEq, Repr

/-- A python value, as far as the orchestrator's truthiness tests and key
lookups observe it. -/
inductive PyVal where
  | vNone
  | vStr (s : String)
  | vInt (n : Int)
  | vBool (b : Bool)
  | vList (elems : List PyVal)
  | vDict (entries : List (String × PyVal))
deriving Repr

/-- Python truthiness (`bool(v)`), on the modelled values. -/
def PyVal.truthy : PyVal → Bool
  | .vNone => false
  | .vStr s => !s.isEmpty
  | .vInt n => n != 0
  | .vBool b => b
  | .vList l => !l.isEmpty
  | .vDict d => !d.isEmpty

/-- `session.context`: a python dict keyed by strings. -/
abbrev Context := List (String × PyVal)

/-- Dict lookup (`context[k]` when present). -/
def ctxLookup (c : Context) (k : String) : Option PyVal :=
  match c.find? (fun p => p.1 == k) with
  | some p => some p.2
  | none => none

/-- Python `k in context`. -/
def ctxHasKey (c : Context) (k : String) : Bool :=
  (ctxLookup c k).isSome

/-- Truthiness of python `context.get(k)` (absent key is `None`, falsy). -/
def ctxGetTruthy (c : Context) (k : String) : Bool :=
  match ctxLookup c k with
  | some v => v.truthy
  | none => false

/-- The part of a session that `Orchestrator._update_session_state` reads
and writes. -/
structure Session where
  state : SessionState
  context : Context
deriving Repr

/-- `Orchestrator._update_session_state` from
ai_agent/src/core/orchestrator.py, translated branch by branch:
`INITIATED` always advances; the `GREETING` branch tests key membership
(`any(k in context ...)`); the `COLLECTING_INFO` branch tests truthiness of
`context.get(field)` for the three required fields; `BOOKING` and
`CONFIRMING` test truthiness of one key each; every other state falls
through unchanged. -/
def updateSessionState (s : Session) : Session :=
  if s.state = SessionState.INITIATED then
    { s with state := SessionState.GREETING }
  else if s.state = SessionState.GREETING then
    if ctxHasKey s.context "desired_service" || ctxHasKey s.context "name"
        || ctxHasKey s.context "phone" then
      { s with state := SessionState.COLLECTING_INFO }
    else s
  else if s.state = SessionState.COLLECTING_INFO then
    if ctxGetTruthy s.context "name" && ctxGetTruthy s.context "phone"
        && ctxGetTruthy s.context "desired_service" then
      { s with state := SessionState.BOOKING }
    else s
  else if s.state = SessionState.BOOKING then
    if ctxGetTruthy s.context "selected_slot" then
      { s with state := SessionState.CONFIRMING }
    else s
  else if s.state = SessionState.CONFIRMING then
    if ctxGetTruthy s.context "appointment_id" then
      { s with state := SessionState.COMPLETED }
    else s
  else s

/-- The transition table exactly as claim C1 words it, with "present in the
context" read uniformly as key membership. Kept separate from
`updateSessionState` so the two can be compared. -/
def specUpdateStateC1 (s : Session) : Session :=
  if s.state = SessionState.INITIATED then
    { s with state := SessionState.GREETING }
  else if s.state = SessionState.GREETING then
    if ctxHasKey s.context "desired_service" || ctxHasKey s.context "name"
        || ctxHasKey s.context "phone" then
      { s with state := SessionState.COLLECTING_INFO }
    else s
  else if s.state = SessionState.COLLECTING_INFO then
    if ctxHasKey s.context "name" && ctxHasKey s.context "phone"
        && ctxHasKey s.context "desired_service" then
      { s with state := SessionState.BOOKING }
    else s
  else if s.state = SessionState.BOOKING then
    if ctxHasKey s.context "selected_slot" then
      { s with state := SessionState.CONFIRMING }
    else s
  else if s.state = SessionState.CONFIRMING then
    if ctxHasKey s.context "appointment_id" then
      { s with state := SessionState.COMPLETED }
    else s
  else s

/-- Position of a state along the happy path; `CONSULTING` sits beside
`COLLECTING_INFO`, and the two terminal states rank highest. -/
def happyRank : SessionState → Nat
  | .INITIATED => 0
  | .GREETING => 1
  | .COLLECTING_INFO => 2
  | .CONSULTING => 2
  | .BOOKING => 3
  | .CONFIRMING => 4
  | .COMPLETED => 5
  | .FAILED => 5

/-- A session in `COLLECTING_INFO` where all three required keys are present
but `name` maps to the empty string. -/
def emptyNameSession : Session :=
  { state := SessionState.COLLECTING_INFO,
    context := [("name", PyVal.vStr ""), ("phone", PyVal.vStr "+79001234567"),
                ("desired_service", PyVal.vStr "s1")] }

/-- C1, counterexample: with `name`, `phone` and `desired_service` all
present as keys but `name` bound to the empty string, the code keeps the
session in `COLLECTING_INFO`, while the claim's table ("iff all ... are
present") advances it to `BOOKING`. -/
theorem updateSessionState_presence_mismatch :
    ctxHasKey emptyNameSession.context "name" = true
      ∧ ctxHasKey emptyNameSession.context "phone" = true
      ∧ ctxHasKey emptyNameSession.context "desired_service" = true
      ∧ emptyNameSession.state = SessionState.COLLECTING_INFO
      ∧ (updateSessionState emptyNameSession).state = SessionState.COLLECTING_INFO
      ∧ (specUpdateStateC1 emptyNameSession).state = SessionState.BOOKING := by
  decide

theorem update_initiated (ctx : Context) :
    updateSessionState ⟨SessionState.INITIATED, ctx⟩ =
      ⟨SessionState.GREETING, ctx⟩ := rfl

theorem update_greeting (ctx : Context) :
    updateSessionState ⟨SessionState.GREETING, ctx⟩ =
      ⟨if ctxHasKey ctx "desired_service" || ctxHasKey ctx "name"
          || ctxHasKey ctx "phone"
        then SessionState.COLLECTING_INFO else SessionState.GREETING, ctx⟩ := by
  by_cases h : (ctxHasKey ctx "desired_service" || ctxHasKey ctx "name"
      || ctxHasKey ctx "phone") = true <;>
    simp [updateSessionState, h]

theorem update_collecting (ctx : Context) :
    updateSessionState ⟨SessionState.COLLECTING_INFO, ctx⟩ =
      ⟨if ctxGetTruthy ctx "name" && ctxGetTruthy ctx "phone"
          && ctxGetTruthy ctx "desired_service"
        then SessionState.BOOKING else SessionState.COLLECTING_INFO, ctx⟩ := by
  by_cases h : (ctxGetTruthy ctx "name" && ctxGetTruthy ctx "phone"
      && ctxGetTruthy ctx "desired_service") = true <;>
    simp [updateSessionState, h]

theorem update_booking (ctx : Context) :
    updateSessionState ⟨SessionState.BOOKING, ctx⟩ =
      ⟨if ctxGetTruthy ctx "selected_slot"
        then SessionState.CONFIRMING else SessionState.BOOKING, ctx⟩ := by
  by_cases h : ctxGetTruthy ctx "selected_slot" = true <;>
    simp [updateSessionState, h]

theorem update_confirming (ctx : Context) :
    updateSessionState ⟨SessionState.CONFIRMING, ctx⟩ =
      ⟨if ctxGetTruthy ctx "appointment_id"
        then SessionState.COMPLETED else SessionState.CONFIRMING, ctx⟩ := by
  by_cases h : ctxGetTruthy ctx "appointment_id" = true <;>
    simp [updateSessionState, h]

theorem update_consulting (ctx : Context) :
    updateSessionState ⟨SessionState.CONSULTING, ctx⟩ =
      ⟨SessionState.CONSULTING, ctx⟩ := rfl

theorem update_completed (ctx : Context) :
    updateSessionState ⟨SessionState.COMPLETED, ctx⟩ =
      ⟨SessionState.COMPLETED, ctx⟩ := rfl

theorem update_failed (ctx : Context) :
    updateSessionState ⟨SessionState.FAILED, ctx⟩ =
      ⟨SessionState.FAILED, ctx⟩ := rfl

/-- C1, amended: the state-update function implements the deterministic
table on (state, context): `INITIATED → GREETING` unconditionally;
`GREETING → COLLECTING_INFO` iff any of the keys `desired_service`, `name`,
`phone` is present; `COLLECTING_INFO → BOOKING` iff all of `name`, `phone`,
`desired_service` hold truthy (e.g. non-empty) values; `BOOKING →
CONFIRMING` iff `selected_slot` is truthy; `CONFIRMING → COMPLETED` iff
`appointment_id` is truthy; `COMPLETED` and `FAILED` sessions are left
unchanged; the context is never modified and the happy-path rank never
decreases, so the happy path is acyclic and monotone. -/
theorem updateSessionState_table (s : Session) :
    (updateSessionState s).context = s.context
      ∧ (s.state = SessionState.INITIATED →
          (updateSessionState s).state = SessionState.GREETING)
      ∧ (s.state = SessionState.GREETING →
          (updateSessionState s).state =
            (if ctxHasKey s.context "desired_service" ∨ ctxHasKey s.context "name"
                ∨ ctxHasKey s.context "phone"
             then SessionState.COLLECTING_INFO else SessionState.GREETING))
      ∧ (s.state = SessionState.COLLECTING_INFO →
          (updateSessionState s).state =
            (if ctxGetTruthy s.context "name" ∧ ctxGetTruthy s.context "phone"
                ∧ ctxGetTruthy s.context "desired_service"
             then SessionState.BOOKING else SessionState.COLLECTING_INFO))
      ∧ (s.state = SessionState.BOOKING →
          (updateSessionState s).state =
            (if ctxGetTruthy s.context "selected_slot"
             then SessionState.CONFIRMING else SessionState.BOOKING))
      ∧ (s.state = SessionState.CONFIRMING →
          (updateSessionState s).state =
            (if ctxGetTruthy s.context "appointment_id"
             then SessionState.COMPLETED else SessionState.CONFIRMING))
      ∧ (s.state = SessionState.COMPLETED → updateSessionState s = s)
      ∧ (s.state = SessionState.FAILED → updateSessionState s = s)
      ∧ happyRank s.state ≤ happyRank (updateSessionState s).state := by
  obtain ⟨st, ctx⟩ := s
  cases st
  case INITIATED =>
    rw [update_initiated]
    exact ⟨rfl, fun _ => rfl, fun h => SessionState.noConfusion h,
      fun h => SessionState.noConfusion h, fun h => SessionState.noConfusion h,
      fun h => SessionState.noConfusion h, fun h => SessionState.noConfusion h,
      fun h => SessionState.noConfusion h, by simp [happyRank]⟩
  case GREETING =>
    rw [update_greeting]
    refine ⟨rfl, fun h => SessionState.noConfusion h, fun _ => ?_,
      fun h => SessionState.noConfusion h, fun h => SessionState.noConfusion h,
      fun h => SessionState.noConfusion h, fun h => SessionState.noConfusion h,
      fun h => SessionState.noConfusion h, ?_⟩
    · by_cases h1 : ctxHasKey ctx "desired_service" <;>
        by_cases h2 : ctxHasKey ctx "name" <;>
        by_cases h3 : ctxHasKey ctx "phone" <;>
        simp [h1, h2, h3]
    · split <;> simp [happyRank]
  case COLLECTING_INFO =>
    rw [update_collecting]
    refine ⟨rfl, fun h => SessionState.noConfusion h,
      fun h => SessionState.noConfusion h, fun _ => ?_,
      fun h => SessionState.noConfusion h, fun h => SessionState.noConfusion h,
      fun h => SessionState.noConfusion h, fun h => SessionState.noConfusion h, ?_⟩
    · by_cases h1 : ctxGetTruthy ctx "name" <;>
        by_cases h2 : ctxGetTruthy ctx "phone" <;>
        by_cases h3 : ctxGetTruthy ctx "desired_service" <;>
        simp [h1, h2, h3]
    · split <;> simp [happyRank]
  case BOOKING =>
    rw [update_booking]
    refine ⟨rfl, fun h => SessionState.noConfusion h,
      fun h => SessionState.noConfusion h, fun h => SessionState.noConfusion h,
      fun _ => ?_, fun h => SessionState.noConfusion h,
      fun h => SessionState.noConfusion h, fun h => SessionState.noConfusion h, ?_⟩
    · by_cases h1 : ctxGetTruthy ctx "selected_slot" <;> simp [h1]
    · split <;> simp [happyRank]
  case CONFIRMING =>
    rw [update_confirming]
    refine ⟨rfl, fun h => SessionState.noConfusion h,
      fun h => SessionState.noConfusion h, fun h => SessionState.noConfusion h,
      fun h => SessionState.noConfusion h, fun _ => ?_,
      fun h => SessionState.noConfusion h, fun h => SessionState.noConfusion h, ?_⟩
    · by_cases h1 : ctxGetTruthy ctx "appointment_id" <;> simp [h1]
    · split <;> simp [happyRank]
  case CONSULTING =>
    rw [update_consulting]
    exact ⟨rfl, fun h => SessionState.noConfusion h,
      fun h => SessionState.noConfusion h, fun h => SessionState.noConfusion h,
      fun h => SessionState.noConfusion h, fun h => SessionState.noConfusion h,
      fun h => SessionState.noConfusion h, fun h => SessionState.noConfusion h,
      by simp [happyRank]⟩
  case COMPLETED =>
    rw [update_completed]
    exact ⟨rfl, fun h => SessionState.noConfusion h,
      fun h => SessionState.noConfusion h, fun h => SessionState.noConfusion h,
      fun h => SessionState.noConfusion h, fun h => SessionState.noConfusion h,
      fun _ => rfl, fun h => SessionState.noConfusion h, by simp [happyRank]⟩
  case FAILED =>
    rw [update_failed]
    exact ⟨rfl, fun h => SessionState.noConfusion h,
      fun h => SessionState.noConfusion h, fun h => SessionState.noConfusion h,
      fun h => SessionState.noConfusion h, fun h => SessionState.noConfusion h,
      fun h => SessionState.noConfusion h, fun _ => rfl, by simp [happyRank]⟩

/-- C1, witness: the amended table evaluated on a concrete `GREETING`
session holding only a `phone` key. -/
theorem updateSessionState_table_witness :
    (updateSessionState
        { state := SessionState.GREETING,
          context := [("phone", PyVal.vStr "+7")] }).state =
      SessionState.COLLECTING_INFO :=
  (updateSessionState_table
      { state := SessionState.GREETING,
        context := [("phone", PyVal.vStr "+7")] }).2.2.1 rfl |>.trans (by decide)

/-! ## Tool execution (ai-agent/src/services/tool_manager.py) -/

/-- The dict `ToolManager.execute_function` returns: `{"result": v}` on
success or `{"error": msg}` on failure. -/
inductive ToolResult where
  | result (v : PyVal)
  | error (msg : String)
deriving Repr

/-- The `"error"` entry of a tool result, when it is one. -/
def ToolResult.errMsg : ToolResult → Option String
  | .result _ => none
  | .error m => some m

/-- A registered tool handler: a python coroutine over the keyword-argument
map that either returns a value or raises an exception, modelled by its
rendered message `str(e)` (strict `datetime.strptime` failures in the CRM
adapter included). -/
abbrev ToolHandler := Context → Except String PyVal

/-- `self.tools`: the tenant-scoped dict `{tool name → handler}`. -/
structure ToolManager where
  tools : List (String × ToolHandler)

/-- The f-string the code produces for an unregistered name. -/
def functionNotFoundMsg (functionName : String) : String :=
  "Функция \x27" ++ functionName ++ "\x27 не найдена"

/-- `ToolManager.execute_function`: an unregistered name yields the
not-found error dict; otherwise the handler runs inside `try`, a raised
exception is caught and rendered as `{"error": str(e)}`, and a normal
return is wrapped as `{"result": ...}`. -/
def execute_function (tm : ToolManager) (functionName : String)
    (arguments : Context) : ToolResult :=
  match tm.tools.find? (fun p => p.1 == functionName) with
  | none => ToolResult.error (functionNotFoundMsg functionName)
  | some p =>
    match p.2 arguments with
    | Except.ok v => ToolResult.result v
    | Except.error e => ToolResult.error e

/-- C2, counterexample: an unregistered tool name is answered with the
russian not-found message, not with the literal `{error: "unknown tool"}`
the claim states. -/
theorem execute_function_unknown_literal_mismatch :
    (execute_function ⟨[]⟩ "get_weather" []).errMsg
        = some (functionNotFoundMsg "get_weather")
      ∧ (execute_function ⟨[]⟩ "get_weather" []).errMsg ≠ some "unknown tool" := by
  constructor
  · rfl
  · intro h
    simp [execute_function, ToolResult.errMsg, functionNotFoundMsg] at h

/-- C2, amended: tool execution is total with result shape
`{result} | {error: string}`: an unregistered name yields
`{error: "Функция \x27<name>\x27 не найдена"}`, a handler exception
(date/time parse failures included) is caught and rendered as
`{error: str(e)}` instead of propagating, and a normal return is wrapped as
`{result}`. -/
theorem execute_function_contract (tm : ToolManager) (functionName : String)
    (arguments : Context) :
    ((∃ v, execute_function tm functionName arguments = ToolResult.result v)
        ∨ (∃ m, execute_function tm functionName arguments = ToolResult.error m))
      ∧ (tm.tools.find? (fun p => p.1 == functionName) = none →
          execute_function tm functionName arguments
            = ToolResult.error (functionNotFoundMsg functionName))
      ∧ (∀ p, tm.tools.find? (fun p => p.1 == functionName) = some p →
          (∀ e, p.2 arguments = Except.error e →
            execute_function tm functionName arguments = ToolResult.error e)
          ∧ (∀ v, p.2 arguments = Except.ok v →
            execute_function tm functionName arguments = ToolResult.result v)) := by
  refine ⟨?_, ?_, ?_⟩
  · cases h : tm.tools.find? (fun p => p.1 == functionName) with
    | none =>
      exact Or.inr ⟨functionNotFoundMsg functionName, by simp [execute_function, h]⟩
    | some p =>
      cases hr : p.2 arguments with
      | ok v => exact Or.inl ⟨v, by simp [execute_function, h, hr]⟩
      | error e => exact Or.inr ⟨e, by simp [execute_function, h, hr]⟩
  · intro h
    simp [execute_function, h]
  · intro p hp
    refine ⟨fun e he => ?_, fun v hv => ?_⟩
    · simp [execute_function, hp, he]
    · simp [execute_function, hp, hv]

/-- A handler behaving like `get_available_slots` fed an unparsable date:
the strict `datetime.strptime` raises and the message is the rendered
exception. -/
def badDateTool : ToolHandler :=
  fun _ => Except.error "time data \x27not-a-date\x27 does not match format \x27%Y-%m-%d\x27"

/-- A one-tool manager used to evaluate the execution contract. -/
def slotsToolManager : ToolManager :=
  ⟨[("get_available_slots", badDateTool)]⟩

/-- C2, witness: on the concrete manager whose only handler raises a strict
date-parse error, execution returns the rendered `{error}` dict. -/
theorem execute_function_contract_witness :
    execute_function slotsToolManager "get_available_slots" []
      = ToolResult.error
          "time data \x27not-a-date\x27 does not match format \x27%Y-%m-%d\x27" :=
  (((execute_function_contract slotsToolManager "get_available_slots" []).2.2
      ("get_available_slots", badDateTool) rfl).1
    "time data \x27not-a-date\x27 does not match format \x27%Y-%m-%d\x27" rfl)

/-! ## Hot conversation history (ai_agent/src/storage/redis_storage.py) -/

/-- One serialized history entry `{"role": role, "parts": [{"text": text}]}`
(the JSON round-trip through `json.dumps`/`json.loads` is a bijection on
these records, so the model keeps the record itself). -/
structure HistEntry where
  role : String
  text : String
deriving DecidableEq, Repr

/-- Redis `LTRIM key -m -1` / `LRANGE key -m -1` both address the last `m`
elements; redis clamps the negative start index at the head of the list. -/
def takeLast (l : List HistEntry) (m : Nat) : List HistEntry :=
  l.drop (l.length - m)

/-- `RedisStorage.add_message_to_history` as a content transform: `RPUSH`
the entry, `LTRIM` to the last `max_messages` (default 20), `EXPIRE` the
key (the TTL does not change the stored list). -/
def add_message_to_history (history : List HistEntry) (role content : String)
    (maxMessages : Nat) : List HistEntry :=
  takeLast (history ++ [⟨role, content⟩]) maxMessages

/-- `RedisStorage.get_conversation_history`: `LRANGE key -max_messages -1`,
deserialized. -/
def get_conversation_history (history : List HistEntry) (maxMessages : Nat) :
    List HistEntry :=
  takeLast history maxMessages

theorem takeLast_length (l : List HistEntry) (m : Nat) :
    (takeLast l m).length ≤ m := by
  simp [takeLast]
  omega

theorem takeLast_concat_getLast? (l : List HistEntry) (e : HistEntry) (m : Nat)
    (hm : 1 ≤ m) : (takeLast (l ++ [e]) m).getLast? = some e := by
  unfold takeLast
  have hk : (l ++ [e]).length - m ≤ l.length := by
    simp
    omega
  rw [List.drop_append_of_le_length hk, List.getLast?_concat]

theorem takeLast_getLast? (l : List HistEntry) (m : Nat) (hm : 1 ≤ m)
    (hl : l ≠ []) : (takeLast l m).getLast? = l.getLast? := by
  conv_lhs => rw [← List.dropLast_append_getLast hl]
  rw [takeLast_concat_getLast? _ _ _ hm, List.getLast?_eq_getLast l hl]

/-- C3: an append leaves at most `N_hist = 20` entries, a whole sequence of
appends does too, and a read returns at most `max_items` entries with the
entry appended last as its final element. -/
theorem history_bounded (history : List HistEntry) (role content : String)
    (m : Nat) (hm : 1 ≤ m) :
    (add_message_to_history history role content 20).length ≤ 20
      ∧ (∀ ops : List (String × String),
          ops ≠ [] →
            (ops.foldl (fun acc op => add_message_to_history acc op.1 op.2 20)
                history).length ≤ 20)
      ∧ (get_conversation_history
            (add_message_to_history history role content 20) m).length ≤ m
      ∧ (get_conversation_history
            (add_message_to_history history role content 20) m).getLast?
          = some ⟨role, content⟩ := by
  refine ⟨takeLast_length _ _, ?_, takeLast_length _ _, ?_⟩
  · intro ops
    induction ops generalizing history with
    | nil => exact fun hne => absurd rfl hne
    | cons op rest ih =>
      intro _
      rw [List.foldl_cons]
      rcases rest with _ | ⟨b, bs⟩
      · exact takeLast_length _ _
      · exact ih (add_message_to_history history op.1 op.2 20) (by simp)
  · have h20 : (add_message_to_history history role content 20).getLast? =
        some ⟨role, content⟩ :=
      takeLast_concat_getLast? history ⟨role, content⟩ 20 (by omega)
    have hne : add_message_to_history history role content 20 ≠ [] := by
      intro h0
      rw [h0] at h20
      simp at h20
    unfold get_conversation_history
    rw [takeLast_getLast? _ _ hm hne, h20]

/-- C3, witness: appending to a full 20-entry history keeps 20 entries and
a 5-entry read ends with the new entry. -/
theorem history_bounded_witness :
    (add_message_to_history (List.replicate 20 ⟨"user", "x"⟩) "model" "hello" 20).length ≤ 20
      ∧ (get_conversation_history
          (add_message_to_history (List.replicate 20 ⟨"user", "x"⟩) "model" "hello" 20)
          5).getLast? = some ⟨"model", "hello"⟩ :=
  ⟨(history_bounded (List.replicate 20 ⟨"user", "x"⟩) "model" "hello" 5
      (by decide)).1,
   (history_bounded (List.replicate 20 ⟨"user", "x"⟩) "model" "hello" 5
      (by decide)).2.2.2⟩

/-! ### Command-level view of `add_message_to_history`

The code issues `RPUSH`, `LTRIM`, `EXPIRE` as three separately awaited
round-trips on `self.redis` — there is no `pipeline()` in
`redis_storage.py` — so each command is its own atomic step and a
concurrent `LRANGE` may land between any two of them. -/

/-- One redis command against the history key. -/
inductive RedisCmd where
  | rpushCmd (e : HistEntry)
  | ltrimCmd (m : Nat)
  | expireCmd (ttl : Nat)
deriving Repr

/-- Effect of one command on the stored list (`EXPIRE` only touches the
TTL). -/
def applyRedisCmd (l : List HistEntry) : RedisCmd → List HistEntry
  | .rpushCmd e => l ++ [e]
  | .ltrimCmd m => takeLast l m
  | .expireCmd _ => l

/-- The exact command sequence `add_message_to_history` issues. -/
def appendCmds (e : HistEntry) (maxMessages ttl : Nat) : List RedisCmd :=
  [RedisCmd.rpushCmd e, RedisCmd.ltrimCmd maxMessages, RedisCmd.expireCmd ttl]

/-- The list a concurrent reader observes after the first `k` of the
append's commands have executed. -/
def observeAfter (l : List HistEntry) (cmds : List RedisCmd) (k : Nat) :
    List HistEntry :=
  (cmds.take k).foldl applyRedisCmd l

/-- C4, counterexample: with a full 20-entry history, a reader scheduled
between the `RPUSH` and the `LTRIM` observes 21 entries, so the
push + trim + expire of an append are not executed as one atomic
pipeline/transaction. -/
theorem append_history_not_atomic :
    (observeAfter (List.replicate 20 ⟨"user", "x"⟩)
        (appendCmds ⟨"model", "reply"⟩ 20 3600) 1).length = 21 := by
  simp [observeAfter, appendCmds, applyRedisCmd]

/-- C4, amended: the append issues push, trim and TTL reset as three
separate commands rather than one pipeline; a reader between the push and
the trim can observe one entry over the bound (21 when the history held
`N_hist = 20`), while a reader before the push or after the trim observes
at most `N_hist` entries, and the completed command sequence computes
exactly `add_message_to_history`. -/
theorem append_history_observation_bounds (l : List HistEntry) (e : HistEntry)
    (ttl : Nat) (hl : l.length ≤ 20) :
    (observeAfter l (appendCmds e 20 ttl) 0).length ≤ 20
      ∧ (observeAfter l (appendCmds e 20 ttl) 1).length ≤ 21
      ∧ (∀ k, 2 ≤ k →
          (observeAfter l (appendCmds e 20 ttl) k).length ≤ 20)
      ∧ (∀ k, 2 ≤ k →
          observeAfter l (appendCmds e 20 ttl) k
            = add_message_to_history l e.role e.text 20) := by
  refine ⟨by simpa [observeAfter, appendCmds] using hl, ?_, ?_, ?_⟩
  · simp [observeAfter, appendCmds, applyRedisCmd]
    omega
  · intro k hk
    match k, hk with
    | 2, _ =>
      simpa [observeAfter, appendCmds, applyRedisCmd] using
        takeLast_length (l ++ [e]) 20
    | (n + 3), _ =>
      have h3 : (appendCmds e 20 ttl).take (n + 3) = appendCmds e 20 ttl :=
        List.take_of_length_le (by simp [appendCmds])
      simpa [observeAfter, h3, appendCmds, applyRedisCmd] using
        takeLast_length (l ++ [e]) 20
  · intro k hk
    match k, hk with
    | 2, _ =>
      simp [observeAfter, appendCmds, applyRedisCmd, add_message_to_history]
    | (n + 3), _ =>
      have h3 : (appendCmds e 20 ttl).take (n + 3) = appendCmds e 20 ttl :=
        List.take_of_length_le (by simp [appendCmds])
      simp [observeAfter, h3, appendCmds, applyRedisCmd, add_message_to_history]

/-- C4, witness: the amended bounds evaluated on a concrete full history. -/
theorem append_history_observation_bounds_witness :
    (observeAfter (List.replicate 20 ⟨"user", "x"⟩)
        (appendCmds ⟨"model", "reply"⟩ 20 3600) 2).length ≤ 20 :=
  (append_history_observation_bounds (List.replicate 20 ⟨"user", "x"⟩)
      ⟨"model", "reply"⟩ 3600 (by simp)).2.2.1 2 (by omega)

/-! ## Durable-store retention and analytics
(shared/services/message_repository.py, shared/services/session_repository.py) -/

/-- A row of the `messages` table as retention reads it; `created_at` in
epoch seconds. -/
structure MessageRow where
  company_id : String
  created_at : Int
deriving DecidableEq, Repr

/-- A row of the `sessions` table as retention and analytics read it. -/
structure SessionRow where
  company_id : String
  created_at : Int
  last_activity_at : Int
  state : String
  crm_appointment_id : Option String
deriving DecidableEq, Repr

/-- `datetime.now(timezone.utc) - timedelta(days=retention_days)` in epoch
seconds. -/
def retentionCutoff (now : Int) (retentionDays : Nat) : Int :=
  now - retentionDays * 86400

/-- `WHERE company_id = :cid AND created_at < :cutoff` of
`MessageRepository.delete_old_messages`. -/
def oldMessage (companyId : String) (cutoff : Int) (m : MessageRow) : Bool :=
  m.company_id == companyId && decide (m.created_at < cutoff)

/-- `MessageRepository.delete_old_messages`: count the matching rows, then
delete them with the same `WHERE` clause (the code skips the `DELETE` when
the count is 0, which leaves the table unchanged either way); returns the
count and the resulting table. -/
def delete_old_messages (msgs : List MessageRow) (companyId : String)
    (now : Int) (retentionDays : Nat) : Nat × List MessageRow :=
  let cutoff := retentionCutoff now retentionDays
  ((msgs.filter (oldMessage companyId cutoff)).length,
   msgs.filter (fun m => !oldMessage companyId cutoff m))

/-- `WHERE company_id = :cid AND last_activity_at < :cutoff` of
`SessionRepository.delete_old_sessions` — the code filters sessions on
`last_activity_at`, not `created_at`. -/
def oldSession (companyId : String) (cutoff : Int) (s : SessionRow) : Bool :=
  s.company_id == companyId && decide (s.last_activity_at < cutoff)

/-- `SessionRepository.delete_old_sessions`: same count-then-delete shape
as for messages. -/
def delete_old_sessions (sessions : List SessionRow) (companyId : String)
    (now : Int) (retentionDays : Nat) : Nat × List SessionRow :=
  let cutoff := retentionCutoff now retentionDays
  ((sessions.filter (oldSession companyId cutoff)).length,
   sessions.filter (fun s => !oldSession companyId cutoff s))

/-- A session created 100 days before `now = 10^7` but active one day
before `now`. -/
def staleCreatedSession : SessionRow :=
  { company_id := "t1", created_at := 10000000 - 100 * 86400,
    last_activity_at := 10000000 - 86400, state := "COMPLETED",
    crm_appointment_id := some "a9" }

/-- C9, counterexample: a session whose `created_at` is far older than the
30-day cutoff but whose `last_activity_at` is recent is NOT deleted — the
session cleanup cuts on `last_activity_at`, not on `created_at` as the
claim states. -/
theorem delete_old_sessions_created_at_mismatch :
    staleCreatedSession.created_at < retentionCutoff 10000000 30
      ∧ delete_old_sessions [staleCreatedSession] "t1" 10000000 30
          = (0, [staleCreatedSession]) := by
  decide

/-- C9, amended: message cleanup deletes exactly the tenant's messages with
`created_at` before the cutoff, session cleanup deletes exactly the
tenant's sessions with `last_activity_at` (not `created_at`) before the
cutoff; every record not matching the predicate survives, and an immediate
re-run deletes 0 records of either kind. -/
theorem cleanup_exact (msgs : List MessageRow) (sessions : List SessionRow)
    (companyId : String) (now : Int) (dm ds : Nat) :
    (delete_old_messages msgs companyId now dm).1
        = (msgs.filter (oldMessage companyId (retentionCutoff now dm))).length
      ∧ (∀ m, m ∈ (delete_old_messages msgs companyId now dm).2 ↔
          m ∈ msgs ∧ ¬(m.company_id = companyId
            ∧ m.created_at < retentionCutoff now dm))
      ∧ (delete_old_messages (delete_old_messages msgs companyId now dm).2
          companyId now dm).1 = 0
      ∧ (delete_old_sessions sessions companyId now ds).1
          = (sessions.filter (oldSession companyId (retentionCutoff now ds))).length
      ∧ (∀ s, s ∈ (delete_old_sessions sessions companyId now ds).2 ↔
          s ∈ sessions ∧ ¬(s.company_id = companyId
            ∧ s.last_activity_at < retentionCutoff now ds))
      ∧ (delete_old_sessions (delete_old_sessions sessions companyId now ds).2
          companyId now ds).1 = 0 := by
  refine ⟨rfl, ?_, ?_, rfl, ?_, ?_⟩
  · intro m
    simp [delete_old_messages, List.mem_filter, oldMessage, not_and]
    tauto
  · simp [delete_old_messages, List.filter_filter]
  · intro s
    simp [delete_old_sessions, List.mem_filter, oldSession, not_and]
    tauto
  · simp [delete_old_sessions, List.filter_filter]

/-- C9, witness: the amended membership rule evaluated on a one-message
table whose row is newer than the cutoff. -/
theorem cleanup_exact_witness :
    (⟨"t1", 9999999⟩ : MessageRow) ∈
      (delete_old_messages [⟨"t1", 9999999⟩] "t1" 10000000 30).2 :=
  ((cleanup_exact [⟨"t1", 9999999⟩] [] "t1" 10000000 30 30).2.1
      ⟨"t1", 9999999⟩).mpr ⟨by decide, by decide⟩

/-- Round half to even at integer precision, python's `round` convention
(the code rounds a python float; the model computes exactly in ℚ). -/
def roundHalfEven (x : ℚ) : Int :=
  if x - Int.floor x < 1/2 then Int.floor x
  else if 1/2 < x - Int.floor x then Int.floor x + 1
  else if Int.floor x % 2 = 0 then Int.floor x else Int.floor x + 1

/-- Python `round(x, 2)`. -/
def pyRound2 (x : ℚ) : ℚ := (roundHalfEven (x * 100) : ℚ) / 100

/-- `total` predicate of `get_conversion_rate`: the company's sessions
created in the window. -/
def inWindowSession (companyId : String) (startDate : Int) (s : SessionRow) :
    Bool :=
  s.company_id == companyId && decide (startDate ≤ s.created_at)

/-- `completed` predicate: additionally `state = 'COMPLETED'` and a CRM
appointment reference. -/
def completedSession (companyId : String) (startDate : Int) (s : SessionRow) :
    Bool :=
  s.company_id == companyId && s.state == "COMPLETED"
    && s.crm_appointment_id.isSome && decide (startDate ≤ s.created_at)

/-- `SessionRepository.get_conversion_rate`: `0.0` when the company has no
sessions in the window, else `round(completed / total * 100, 2)`. -/
def get_conversion_rate (sessions : List SessionRow) (companyId : String)
    (startDate : Int) : ℚ :=
  let total := (sessions.filter (inWindowSession companyId startDate)).length
  if total = 0 then 0
  else
    let completed :=
      (sessions.filter (completedSession companyId startDate)).length
    pyRound2 ((completed : ℚ) / (total : ℚ) * 100)

theorem completed_le_total (sessions : List SessionRow) (companyId : String)
    (startDate : Int) :
    (sessions.filter (completedSession companyId startDate)).length ≤
      (sessions.filter (inWindowSession companyId startDate)).length := by
  refine List.Sublist.length_le (List.monotone_filter_right sessions ?_)
  intro s
  simp only [completedSession, inWindowSession]
  cases h1 : (s.company_id == companyId) <;>
    cases h2 : (s.state == "COMPLETED") <;>
    cases h3 : s.crm_appointment_id.isSome <;>
    cases h4 : decide (startDate ≤ s.created_at) <;> simp

theorem roundHalfEven_nonneg (x : ℚ) (hx : 0 ≤ x) : 0 ≤ roundHalfEven x := by
  unfold roundHalfEven
  have hf : (0 : Int) ≤ Int.floor x := Int.floor_nonneg.mpr hx
  split_ifs <;> omega

theorem roundHalfEven_le_of_le (x : ℚ) (B : Int) (hx : x ≤ (B : ℚ)) :
    roundHalfEven x ≤ B := by
  have hf : Int.floor x ≤ B := by
    have := Int.floor_le_floor hx
    simpa using this
  have hfl : (Int.floor x : ℚ) ≤ x := Int.floor_le x
  unfold roundHalfEven
  split_ifs with h1 h2 h3
  · exact hf
  · have hlt : (Int.floor x : ℚ) < (B : ℚ) - 1/2 := by linarith
    have hne : Int.floor x ≠ B := by
      intro hEq
      rw [hEq] at hlt
      linarith
    omega
  · exact hf
  · have hlt : (Int.floor x : ℚ) ≤ (B : ℚ) - 1/2 := by linarith
    have hne : Int.floor x ≠ B := by
      intro hEq
      rw [hEq] at hlt
      linarith
    omega

/-- C10: the conversion-rate computation is total — with zero sessions in
the window it returns 0.0 instead of dividing by zero, otherwise it returns
`round(completed / total * 100, 2)` — and the result always lies in
`[0, 100]`. -/
theorem get_conversion_rate_total_and_bounded (sessions : List SessionRow)
    (companyId : String) (startDate : Int) :
    (0 : ℚ) ≤ get_conversion_rate sessions companyId startDate
      ∧ get_conversion_rate sessions companyId startDate ≤ 100
      ∧ ((sessions.filter (inWindowSession companyId startDate)).length = 0 →
          get_conversion_rate sessions companyId startDate = 0)
      ∧ ((sessions.filter (inWindowSession companyId startDate)).length ≠ 0 →
          get_conversion_rate sessions companyId startDate
            = pyRound2
                (((sessions.filter (completedSession companyId startDate)).length : ℚ)
                  / ((sessions.filter (inWindowSession companyId startDate)).length : ℚ)
                  * 100)) := by
  set t := (sessions.filter (inWindowSession companyId startDate)).length with ht
  set c := (sessions.filter (completedSession companyId startDate)).length with hc
  have hct : c ≤ t := completed_le_total sessions companyId startDate
  by_cases h0 : t = 0
  · refine ⟨?_, ?_, fun _ => ?_, fun hne => absurd h0 hne⟩ <;>
      simp [get_conversion_rate, ← ht, ← hc, h0]
  · have htpos : (0 : ℚ) < (t : ℚ) := by
      exact_mod_cast Nat.pos_of_ne_zero h0
    have hq0 : (0 : ℚ) ≤ (c : ℚ) / (t : ℚ) * 100 := by positivity
    have hq100 : (c : ℚ) / (t : ℚ) * 100 ≤ 100 := by
      have hdiv : (c : ℚ) / (t : ℚ) ≤ 1 := by
        rw [div_le_one htpos]
        exact_mod_cast hct
      linarith
    have heq : get_conversion_rate sessions companyId startDate
        = pyRound2 ((c : ℚ) / (t : ℚ) * 100) := by
      simp [get_conversion_rate, ← ht, ← hc, h0]
    refine ⟨?_, ?_, fun habs => absurd habs h0, fun _ => heq⟩
    · rw [heq]
      unfold pyRound2
      have hr : (0 : Int) ≤ roundHalfEven ((c : ℚ) / (t : ℚ) * 100 * 100) :=
        roundHalfEven_nonneg _ (by positivity)
      have hrq : (0 : ℚ) ≤ (roundHalfEven ((c : ℚ) / (t : ℚ) * 100 * 100) : ℚ) := by
        exact_mod_cast hr
      exact div_nonneg hrq (by norm_num)
    · rw [heq]
      unfold pyRound2
      have hle : roundHalfEven ((c : ℚ) / (t : ℚ) * 100 * 100) ≤ 10000 :=
        roundHalfEven_le_of_le _ 10000 (by push_cast; linarith)
      rw [div_le_iff₀ (by norm_num : (0:ℚ) < 100)]
      calc ((roundHalfEven ((c : ℚ) / (t : ℚ) * 100 * 100) : Int) : ℚ)
          ≤ (10000 : ℚ) := by exact_mod_cast hle
        _ = 100 * 100 := by norm_num

/-- Two sessions of tenant `t1` in the window, one of them completed with
an appointment. -/
def convSessions : List SessionRow :=
  [⟨"t1", 100, 100, "COMPLETED", some "a1"⟩,
   ⟨"t1", 200, 200, "GREETING", none⟩]

/-- C10, witness: on the two-session tenant the nonzero branch is taken and
the rate is the rounded ratio. -/
theorem get_conversion_rate_witness :
    get_conversion_rate convSessions "t1" 0
      = pyRound2 (((convSessions.filter (completedSession "t1" 0)).length : ℚ)
          / ((convSessions.filter (inWindowSession "t1" 0)).length : ℚ) * 100) :=
  (get_conversion_rate_total_and_bounded convSessions "t1" 0).2.2.2 (by decide)

/-! ## Ingress webhook gating (api_gateway/src/api/routers/telegram.py) -/

/-- A channel row as the webhook handler reads it. -/
structure ChannelRec where
  webhook_token : String
  is_active : Bool
  company_id : String
deriving DecidableEq, Repr

/-- `CompanyService.get_channel_by_token`
(shared/services/company_service.py): the SQL `WHERE` conjoins
`webhook_token == token` with `is_active == True`, so the lookup never
returns an inactive channel. -/
def get_channel_by_token (channels : List ChannelRec) (token : String) :
    Option ChannelRec :=
  channels.find? (fun c => c.webhook_token == token && c.is_active)

/-- `update.message.from`. -/
structure TgUser where
  id : Int
  first_name : Option String
deriving DecidableEq, Repr

/-- `update.message`. -/
structure TgMessage where
  from_user : Option TgUser
  text : Option String
  chat_id : Option Int
  message_id : Option Int
deriving DecidableEq, Repr

/-- A Telegram `Update` payload as the handler reads it. -/
structure TgUpdate where
  update_id : Option Int
  message : Option TgMessage
deriving DecidableEq, Repr

/-- The neutral `Message` the gateway constructs and forwards to the AI
agent's `/process` (which is where sessions are created and messages
persisted). -/
structure ForwardedMessage where
  session_id : String
  text : String
  from_user_id : String
  from_user_name : Option String
  company_id : String
deriving DecidableEq, Repr

/-- HTTP status of the webhook response plus everything the handler sent
downstream before answering. -/
structure WebhookOutcome where
  status : Nat
  forwarded : List ForwardedMessage
deriving DecidableEq, Repr

/-- `telegram_webhook` from api_gateway/src/api/routers/telegram.py: token
lookup first, 404 on miss, before any message is constructed or forwarded;
the handler's own `if not channel.is_active: 403` branch is kept as written
even though the lookup's `is_active` filter makes it unreachable; an
update without `message` is acknowledged with 200 and nothing forwarded;
otherwise the neutral message with
`session_id = "tg_" + str(update.message.from.id)` is forwarded (a
downstream agent error is logged and swallowed, the response stays 200). -/
def telegram_webhook (channels : List ChannelRec) (webhookToken : String)
    (update : TgUpdate) : WebhookOutcome :=
  match get_channel_by_token channels webhookToken with
  | none => ⟨404, []⟩
  | some channel =>
    if channel.is_active = false then ⟨403, []⟩
    else
      match update.message with
      | none => ⟨200, []⟩
      | some tgMessage =>
        let tgUserId := match tgMessage.from_user with
          | some u => toString u.id
          | none => "None"
        ⟨200, [{ session_id := "tg_" ++ tgUserId,
                 text := tgMessage.text.getD "",
                 from_user_id := tgUserId,
                 from_user_name := match tgMessage.from_user with
                   | some u => u.first_name
                   | none => none,
                 company_id := channel.company_id }]⟩

/-- A valid Telegram update carrying a text message from user 42. -/
def sampleUpdate : TgUpdate :=
  ⟨some 1, some ⟨some ⟨42, some "Ann"⟩, some "Hi", some 42, some 1⟩⟩

/-- A registry holding exactly one channel, inactive, with token `tok1`. -/
def inactiveChannels : List ChannelRec := [⟨"tok1", false, "t1"⟩]

/-- C8, counterexample: the token of an existing but inactive channel is
answered 404, not the 403 the claim states — the lookup's
`is_active == True` conjunct filters the channel out before the handler's
403 branch can see it. -/
theorem telegram_webhook_inactive_404 :
    (∃ ch ∈ inactiveChannels,
        ch.webhook_token = "tok1" ∧ ch.is_active = false)
      ∧ telegram_webhook inactiveChannels "tok1" sampleUpdate = ⟨404, []⟩
      ∧ telegram_webhook inactiveChannels "tok1" sampleUpdate ≠ ⟨403, []⟩ := by
  decide

/-- C8, amended: a webhook token matching no channel — and likewise one
whose only matching channels are inactive, since the lookup filters on
`is_active` — yields HTTP 404 with nothing forwarded downstream, so no
session is created and no message persisted; the lookup only ever returns
active channels, hence the handler's 403 branch is unreachable and no
request is answered 403. -/
theorem telegram_webhook_gating (channels : List ChannelRec) (token : String)
    (update : TgUpdate) :
    (get_channel_by_token channels token = none →
        telegram_webhook channels token update = ⟨404, []⟩)
      ∧ ((∀ ch ∈ channels, ch.webhook_token = token → ch.is_active = false) →
          get_channel_by_token channels token = none)
      ∧ (∀ ch, get_channel_by_token channels token = some ch →
          ch.is_active = true)
      ∧ (telegram_webhook channels token update).status ≠ 403 := by
  have hact : ∀ ch, get_channel_by_token channels token = some ch →
      ch.is_active = true := by
    intro ch hch
    have hp := List.find?_some hch
    simp only [Bool.and_eq_true, beq_iff_eq] at hp
    exact hp.2
  refine ⟨?_, ?_, hact, ?_⟩
  · intro h
    simp [telegram_webhook, h]
  · intro h
    rw [get_channel_by_token, List.find?_eq_none]
    intro ch hch
    simp only [Bool.and_eq_true, beq_iff_eq, not_and]
    intro heq
    rw [h ch hch heq]
    simp
  · rcases hl : get_channel_by_token channels token with _ | ch
    · simp [telegram_webhook, hl]
    · have ha := hact ch hl
      rcases hu : update.message with _ | m <;>
        simp [telegram_webhook, hl, ha, hu]

/-- C8, witness: against the registry holding only the inactive channel
`tok1`, both the unknown token `deadbeef` and the inactive channel's own
token are answered 404, nothing forwarded in either case. -/
theorem telegram_webhook_gating_witness :
    telegram_webhook inactiveChannels "deadbeef" sampleUpdate = ⟨404, []⟩
      ∧ telegram_webhook inactiveChannels "tok1" sampleUpdate = ⟨404, []⟩ :=
  ⟨(telegram_webhook_gating inactiveChannels "deadbeef" sampleUpdate).1
      (by decide),
   (telegram_webhook_gating inactiveChannels "tok1" sampleUpdate).1
      ((telegram_webhook_gating inactiveChannels "tok1" sampleUpdate).2.1
        (by decide))⟩

/-! ## LLM response parsing (ai-agent/src/services/gemini_service.py) -/

/-- A parsed function call `{name, args}`. -/
structure FunctionCall where
  name : String
  args : Context
deriving Repr

/-- One `candidate.content.parts[i]`: in the vendor's protobuf every part
has both fields, an unset/empty one being falsy — modelled as `Option`
(with `some ""` for an explicitly empty text). -/
structure Part where
  text : Option String
  function_call : Option FunctionCall
deriving Repr

/-- `candidate.content`. -/
structure GContent where
  parts : List Part
deriving Repr

/-- One element of `response.candidates`. -/
structure Candidate where
  finish_reason : Option Int
  content : Option GContent
deriving Repr

/-- The provider response as `_parse_response` reads it. -/
structure GenerateResponse where
  candidates : List Candidate
deriving Repr

/-- The dict `_parse_response` builds. -/
structure ParsedResponse where
  finish_reason : Option Int
  text : Option String
  function_call : Option FunctionCall
deriving Repr

/-- The body of the `for part in candidate.content.parts` loop: a truthy
(non-empty) `part.text` overwrites `text`, a set `part.function_call`
overwrites `function_call`. -/
def parsePart (acc : ParsedResponse) (part : Part) : ParsedResponse :=
  let acc1 := match part.text with
    | some t => if t.isEmpty then acc else { acc with text := some t }
    | none => acc
  match part.function_call with
  | some fc => { acc1 with function_call := some fc }
  | none => acc1

/-- `GeminiService._parse_response`: start from all-`None`, return early
when there are no candidates, no content or no parts (setting
`finish_reason` from the first candidate when there is one), else fold the
loop body over the parts. -/
def parse_response (r : GenerateResponse) : ParsedResponse :=
  match r.candidates with
  | [] => ⟨none, none, none⟩
  | candidate :: _ =>
    match candidate.content with
    | none => ⟨candidate.finish_reason, none, none⟩
    | some content =>
      if content.parts.isEmpty then ⟨candidate.finish_reason, none, none⟩
      else content.parts.foldl parsePart ⟨candidate.finish_reason, none, none⟩

theorem parsePart_finish (acc : ParsedResponse) (p : Part) :
    (parsePart acc p).finish_reason = acc.finish_reason := by
  rcases p with ⟨pt, pfc⟩
  rcases pt with _ | t
  · rcases pfc with _ | fc <;> rfl
  · rcases pfc with _ | fc <;> by_cases h : t.isEmpty <;> simp [parsePart, h]

theorem parsePart_text (acc : ParsedResponse) (p : Part) :
    (parsePart acc p).text.isSome = true
      ↔ (acc.text.isSome = true
          ∨ ∃ t, p.text = some t ∧ t.isEmpty = false) := by
  rcases p with ⟨pt, pfc⟩
  rcases pt with _ | t
  · rcases pfc with _ | fc <;> simp [parsePart]
  · rcases pfc with _ | fc <;> by_cases h : t.isEmpty <;> simp [parsePart, h]

theorem parsePart_fc (acc : ParsedResponse) (p : Part) :
    (parsePart acc p).function_call.isSome = true
      ↔ (acc.function_call.isSome = true ∨ p.function_call.isSome = true) := by
  rcases p with ⟨pt, pfc⟩
  rcases pt with _ | t
  · rcases pfc with _ | fc <;> simp [parsePart]
  · rcases pfc with _ | fc <;> by_cases h : t.isEmpty <;> simp [parsePart, h]

theorem foldl_parsePart_finish (parts : List Part) (acc : ParsedResponse) :
    (parts.foldl parsePart acc).finish_reason = acc.finish_reason := by
  induction parts generalizing acc with
  | nil => rfl
  | cons p ps ih => rw [List.foldl_cons, ih, parsePart_finish]

theorem foldl_parsePart_text (parts : List Part) (acc : ParsedResponse) :
    (parts.foldl parsePart acc).text.isSome = true
      ↔ (acc.text.isSome = true
          ∨ ∃ p ∈ parts, ∃ t, p.text = some t ∧ t.isEmpty = false) := by
  induction parts generalizing acc with
  | nil => simp
  | cons p ps ih =>
    rw [List.foldl_cons, ih]
    constructor
    · rintro (h | h)
      · rcases (parsePart_text acc p).mp h with h' | ⟨t, ht, hne⟩
        · exact Or.inl h'
        · exact Or.inr ⟨p, List.mem_cons_self p ps, t, ht, hne⟩
      · rcases h with ⟨q, hq, hqt⟩
        exact Or.inr ⟨q, List.mem_cons_of_mem _ hq, hqt⟩
    · rintro (h | ⟨q, hq, hqt⟩)
      · exact Or.inl ((parsePart_text acc p).mpr (Or.inl h))
      · rcases List.mem_cons.mp hq with rfl | hq'
        · exact Or.inl ((parsePart_text acc q).mpr (Or.inr hqt))
        · exact Or.inr ⟨q, hq', hqt⟩

theorem foldl_parsePart_fc (parts : List Part) (acc : ParsedResponse) :
    (parts.foldl parsePart acc).function_call.isSome = true
      ↔ (acc.function_call.isSome = true
          ∨ ∃ p ∈ parts, p.function_call.isSome = true) := by
  induction parts generalizing acc with
  | nil => simp
  | cons p ps ih =>
    rw [List.foldl_cons, ih]
    constructor
    · rintro (h | h)
      · rcases (parsePart_fc acc p).mp h with h' | h'
        · exact Or.inl h'
        · exact Or.inr ⟨p, List.mem_cons_self p ps, h'⟩
      · rcases h with ⟨q, hq, hqt⟩
        exact Or.inr ⟨q, List.mem_cons_of_mem _ hq, hqt⟩
    · rintro (h | ⟨q, hq, hqt⟩)
      · exact Or.inl ((parsePart_fc acc p).mpr (Or.inl h))
      · rcases List.mem_cons.mp hq with rfl | hq'
        · exact Or.inl ((parsePart_fc acc q).mpr (Or.inr hqt))
        · exact Or.inr ⟨q, hq', hqt⟩

/-- A response whose single candidate carries a text part followed by a
function-call part. -/
def textAndCallResponse : GenerateResponse :=
  ⟨[⟨some 1, some ⟨[⟨some "Вот наши услуги", none⟩,
      ⟨none, some ⟨"get_services", []⟩⟩]⟩⟩]⟩

/-- C6, counterexample: on a candidate carrying both a text part and a
function-call part the parser populates BOTH `text` and the tool call, so
"exactly one of text and tool_call is populated" fails on the code. -/
theorem parse_response_both_populated :
    (parse_response textAndCallResponse).text.isSome = true
      ∧ (parse_response textAndCallResponse).function_call.isSome = true :=
  ⟨rfl, rfl⟩

/-- C6, amended: the parser populates each field independently: over the
first candidate's parts, `text` is set iff some part carries non-empty
text and `tool_call` iff some part carries a function call — so a response
whose parts hold exactly one of the two kinds populates exactly one field,
one holding both kinds populates both, and a response with no candidates,
no content or no parts yields the empty response (both fields `None`). -/
theorem parse_response_fields (r : GenerateResponse) :
    (r.candidates = [] → (parse_response r).text = none
        ∧ (parse_response r).function_call = none)
      ∧ (∀ cand rest, r.candidates = cand :: rest →
          (cand.content = none → (parse_response r).text = none
              ∧ (parse_response r).function_call = none)
          ∧ (∀ content, cand.content = some content →
              (parse_response r).finish_reason = cand.finish_reason
              ∧ ((parse_response r).text.isSome = true ↔
                  ∃ p ∈ content.parts, ∃ t, p.text = some t ∧ t.isEmpty = false)
              ∧ ((parse_response r).function_call.isSome = true ↔
                  ∃ p ∈ content.parts, p.function_call.isSome = true))) := by
  constructor
  · intro h
    simp [parse_response, h]
  · intro cand rest hr
    constructor
    · intro hc
      simp [parse_response, hr, hc]
    · intro content hc
      rcases hparts : content.parts with _ | ⟨p, ps⟩
      · refine ⟨?_, ?_, ?_⟩ <;>
          simp [parse_response, hr, hc, hparts]
      · have hne : content.parts.isEmpty = false := by
          rw [hparts]
          rfl
        have hbody : parse_response r
            = content.parts.foldl parsePart ⟨cand.finish_reason, none, none⟩ := by
          simp [parse_response, hr, hc, hne]
        refine ⟨?_, ?_, ?_⟩
        · rw [hbody, foldl_parsePart_finish]
        · rw [hbody, foldl_parsePart_text]
          rw [hparts]
          simp [List.mem_cons]
        · rw [hbody, foldl_parsePart_fc]
          rw [hparts]
          simp [List.mem_cons]

/-- C6, witness: a single-text-part response populates `text` and not the
tool call, and an empty-candidate response populates neither. -/
theorem parse_response_fields_witness :
    ((parse_response ⟨[⟨some 1, some ⟨[⟨some "Здравствуйте!", none⟩]⟩⟩]⟩).text.isSome = true)
      ∧ (parse_response ⟨[]⟩).text = none := by
  constructor
  · exact ((parse_response_fields ⟨[⟨some 1, some ⟨[⟨some "Здравствуйте!", none⟩]⟩⟩]⟩).2
        ⟨some 1, some ⟨[⟨some "Здравствуйте!", none⟩]⟩⟩ [] rfl).2
        ⟨[⟨some "Здравствуйте!", none⟩]⟩ rfl |>.2.1.mpr
      ⟨⟨some "Здравствуйте!", none⟩, List.mem_cons_self _ _,
        "Здравствуйте!", rfl, rfl⟩
  · exact ((parse_response_fields ⟨[]⟩).1 rfl).1

/-! ## Sliding-window rate limiting (api_gateway/src/middleware/rate_limit.py)

The redis sorted set `ratelimit:<id>` maps member `str(now)` to score
`now`; two members coincide exactly when the two timestamps coincide, so
the set is modelled by its list of scores in insertion order. -/

/-- The scores of the sorted set, in insertion order. -/
abbrev ZSet := List ℚ

/-- `ZREMRANGEBYSCORE key lo hi`: drop scores in `[lo, hi]`. -/
def zremrangebyscore (z : ZSet) (lo hi : ℚ) : ZSet :=
  z.filter (fun s => !(decide (lo ≤ s) && decide (s ≤ hi)))

/-- `ZADD key {str(now): now}`: a fresh member is appended, re-adding an
existing member (same timestamp) only rewrites its score. -/
def zadd (z : ZSet) (score : ℚ) : ZSet :=
  if score ∈ z then z else z ++ [score]

/-- Result triple of `check_rate_limit`: `(allowed, remaining, reset)`. -/
structure RateCheckResult where
  allowed : Bool
  remaining : Nat
  reset : ℚ
deriving DecidableEq, Repr

/-- `RateLimitMiddleware.check_rate_limit`: one pipeline doing
`zremrangebyscore(key, 0, now - window)`, `zcard` (the count BEFORE this
request is added), `zadd(key, {str(now): now})`, `expire`; the request is
rejected when the count already reaches the limit (its timestamp is still
added), else allowed with `remaining = max(0, limit - count - 1)`;
`reset = now + window` in both cases. -/
def check_rate_limit (z : ZSet) (now : ℚ) (limit : Nat) (windowSeconds : ℚ) :
    RateCheckResult × ZSet :=
  let z1 := zremrangebyscore z 0 (now - windowSeconds)
  if limit ≤ z1.length then
    (⟨false, 0, now + windowSeconds⟩, zadd z1 now)
  else
    (⟨true, ((limit : Int) - z1.length - 1).toNat, now + windowSeconds⟩,
      zadd z1 now)

/-- The response `RateLimitMiddleware.dispatch` produces, as far as status
and rate-limit headers go. -/
structure RLHttpResponse where
  status : Nat
  limitHeader : Nat
  remainingHeader : Nat
  resetHeader : ℚ
  retryAfter : Option ℚ
deriving DecidableEq, Repr

/-- `RateLimitMiddleware.dispatch` around an inner app answering
`appStatus`: on block, 429 with `Retry-After = str(window)` and
`X-RateLimit-Remaining = "0"`; on pass, the inner response with the
headers attached. -/
def rl_dispatch (z : ZSet) (now : ℚ) (limit : Nat) (windowSeconds : ℚ)
    (appStatus : Nat) : RLHttpResponse × ZSet :=
  let r := check_rate_limit z now limit windowSeconds
  if r.1.allowed = false then
    (⟨429, limit, 0, r.1.reset, some windowSeconds⟩, r.2)
  else
    (⟨appStatus, limit, r.1.remaining, r.1.reset, none⟩, r.2)

/-- `RateLimitMiddleware.get_rate_limit`: per-path-class limits. -/
def path_contains (path sub : String) : Bool :=
  decide (List.IsInfix sub.toList path.toList)

def get_rate_limit (hasApiKey : Bool) (path : String) (defaultLimit : Nat) :
    Nat :=
  if hasApiKey then 1000
  else if path_contains path "/webhook" || path_contains path "/telegram"
      || path_contains path "/whatsapp" then 200
  else if path_contains path "/health" then 10000
  else defaultLimit

/-- Run the middleware over a sequence of requests at the given times (one
identifier, one path class), collecting each request's `allowed` flag. -/
def processRequests (z : ZSet) (times : List ℚ) (limit : Nat)
    (windowSeconds : ℚ) : List (ℚ × Bool) × ZSet :=
  match times with
  | [] => ([], z)
  | t :: ts =>
    let r1 := check_rate_limit z t limit windowSeconds
    let rest := processRequests r1.2 ts limit windowSeconds
    ((t, r1.1.allowed) :: rest.1, rest.2)

/-- The sorted-set state left behind by a strictly increasing positive
request sequence `prev`: every earlier request's timestamp newer than the
last request's window start. -/
def stateAfter (prev : List ℚ) (w : ℚ) : ZSet :=
  match prev.getLast? with
  | none => []
  | some tl => prev.filter (fun s => decide (tl - w < s))

theorem zrem_stateAfter (prev : List ℚ) (w t : ℚ)
    (hpos : ∀ s ∈ prev, 0 < s) (hlt : ∀ s ∈ prev, s < t) :
    zremrangebyscore (stateAfter prev w) 0 (t - w)
      = prev.filter (fun s => decide (t - w < s)) := by
  unfold stateAfter
  cases hgl : prev.getLast? with
  | none =>
    rw [List.getLast?_eq_none_iff.mp hgl]
    rfl
  | some tl =>
    have htl : tl ∈ prev := List.mem_of_mem_getLast? hgl
    rw [zremrangebyscore, List.filter_filter]
    apply List.filter_congr
    intro s hs
    have h0 : 0 < s := hpos s hs
    have hst : s < t := hlt s hs
    have htlt : tl < t := hlt tl htl
    by_cases hc : t - w < s
    · have h1 : ¬(s ≤ t - w) := by linarith
      have h2 : tl - w < s := by linarith
      simp [h0.le, h1, h2, hc]
    · have h1 : s ≤ t - w := by linarith
      simp [h0.le, h1, hc]

theorem count_window_filter (prev ts : List ℚ) (w t : ℚ)
    (hprevlt : ∀ s ∈ prev, s < t) (htslt : ∀ s ∈ ts, t < s) :
    prev.filter (fun s => decide (t - w < s))
      = (prev ++ t :: ts).filter
          (fun s => decide (s < t) && decide (t - w < s)) := by
  rw [List.filter_append]
  have h2 : (t :: ts).filter (fun s => decide (s < t) && decide (t - w < s))
      = [] := by
    rw [List.filter_eq_nil_iff]
    intro s hs
    rcases List.mem_cons.mp hs with rfl | hmem
    · simp
    · have := htslt s hmem
      simp [not_lt.mpr this.le]
  rw [h2, List.append_nil]
  apply List.filter_congr
  intro s hs
  simp [hprevlt s hs]

theorem zadd_stateAfter (prev : List ℚ) (w t : ℚ) (hw : 0 < w)
    (hlt : ∀ s ∈ prev, s < t) :
    zadd (prev.filter (fun s => decide (t - w < s))) t
      = stateAfter (prev ++ [t]) w := by
  have hnm : t ∉ prev.filter (fun s => decide (t - w < s)) := by
    intro hmem
    exact absurd (hlt t (List.mem_of_mem_filter hmem)) (lt_irrefl t)
  rw [zadd, if_neg hnm]
  unfold stateAfter
  rw [List.getLast?_concat]
  show List.filter (fun s => decide (t - w < s)) prev ++ [t]
      = List.filter (fun s => decide (t - w < s)) (prev ++ [t])
  rw [List.filter_append]
  congr 1
  have hlt2 : t - w < t := by linarith
  simp [hlt2]

/-- The exact semantics of a request stream with strictly increasing
positive timestamps: the request at time `t` is allowed iff strictly fewer
than `limit` earlier requests fall in the half-open window `(t - w, t)`. -/
theorem processRequests_spec (limit : Nat) (w : ℚ) (hw : 0 < w) :
    ∀ (times prev : List ℚ),
      List.Pairwise (· < ·) (prev ++ times) →
      (∀ t ∈ prev ++ times, 0 < t) →
      (processRequests (stateAfter prev w) times limit w).1
        = times.map (fun t =>
            (t, decide (((prev ++ times).filter
                (fun s => decide (s < t) && decide (t - w < s))).length
              < limit))) := by
  intro times
  induction times with
  | nil =>
    intro prev _ _
    rfl
  | cons t ts ih =>
    intro prev hpw hpos
    have hsplit := List.pairwise_append.mp hpw
    have hprevlt : ∀ s ∈ prev, s < t :=
      fun s hs => hsplit.2.2 s hs t (List.mem_cons_self t ts)
    have htslt : ∀ s ∈ ts, t < s :=
      fun s hs => (List.pairwise_cons.mp hsplit.2.1).1 s hs
    have hprevpos : ∀ s ∈ prev, 0 < s :=
      fun s hs => hpos s (List.mem_append_left _ hs)
    have htpos : 0 < t :=
      hpos t (List.mem_append_right _ (List.mem_cons_self t ts))
    have hz1 := zrem_stateAfter prev w t hprevpos hprevlt
    have hcnt := count_window_filter prev ts w t hprevlt htslt
    have hz2 := zadd_stateAfter prev w t hw hprevlt
    rw [processRequests]
    have hcheck : check_rate_limit (stateAfter prev w) t limit w
        = (if limit ≤ ((prev ++ t :: ts).filter
              (fun s => decide (s < t) && decide (t - w < s))).length
           then (⟨false, 0, t + w⟩, stateAfter (prev ++ [t]) w)
           else (⟨true, ((limit : Int)
                  - ((prev ++ t :: ts).filter
                      (fun s => decide (s < t) && decide (t - w < s))).length
                  - 1).toNat, t + w⟩, stateAfter (prev ++ [t]) w)) := by
      rw [check_rate_limit]
      rw [hz1, hz2, hcnt]
    rw [hcheck]
    have htail : (processRequests (stateAfter (prev ++ [t]) w) ts limit w).1
        = ts.map (fun u =>
            (u, decide ((((prev ++ [t]) ++ ts).filter
                (fun s => decide (s < u) && decide (u - w < s))).length
              < limit))) := by
      apply ih (prev ++ [t])
      · rw [List.append_assoc]
        exact hpw
      · rw [List.append_assoc]
        exact hpos
    by_cases hcl : limit ≤ ((prev ++ t :: ts).filter
        (fun s => decide (s < t) && decide (t - w < s))).length
    · rw [if_pos hcl]
      have hflag : decide (((prev ++ t :: ts).filter
          (fun s => decide (s < t) && decide (t - w < s))).length < limit)
          = false := by
        rw [decide_eq_false_iff_not]
        omega
      rw [List.map_cons, hflag]
      refine congrArg₂ _ rfl ?_
      rw [htail, List.append_assoc]
      rfl
    · rw [if_neg hcl]
      have hflag : decide (((prev ++ t :: ts).filter
          (fun s => decide (s < t) && decide (t - w < s))).length < limit)
          = true := by
        rw [decide_eq_true_eq]
        omega
      rw [List.map_cons, hflag]
      refine congrArg₂ _ rfl ?_
      rw [htail, List.append_assoc]
      rfl

/-- Counting core: a nodup-sorted selection `W` of request times, each
lying in `(a, a + w]` and each seeing fewer than `limit` earlier requests
inside its own window, has at most `limit` elements. -/
theorem nodup_window_count_le (limit : Nat) (times W : List ℚ) (a w : ℚ)
    (hsorted : List.Pairwise (· < ·) times)
    (hWsub : W.Sublist times)
    (hmem : ∀ t ∈ W, a < t ∧ t ≤ a + w
        ∧ ((times.filter (fun s => decide (s < t) && decide (t - w < s))).length
            < limit)) :
    W.length ≤ limit := by
  rcases hgl : W.getLast? with _ | tl
  · rw [List.getLast?_eq_none_iff.mp hgl]
    simp
  · have hWne : W ≠ [] := by
      intro h0
      rw [h0] at hgl
      exact Option.noConfusion hgl
    have htlW : tl ∈ W := List.mem_of_mem_getLast? hgl
    obtain ⟨hta, htb, hcnt⟩ := hmem tl htlW
    have hndT : times.Nodup := hsorted.imp ne_of_lt
    have hWnd : W.Nodup := hWsub.nodup hndT
    have hWpw : W.Pairwise (· < ·) := hsorted.sublist hWsub
    have hsplitW : W.dropLast ++ [tl] = W := by
      have h := List.dropLast_append_getLast hWne
      rwa [(List.getLast_eq_iff_getLast_eq_some hWne).mpr hgl] at h
    have hsub2 : W.dropLast ⊆
        times.filter (fun s => decide (s < tl) && decide (tl - w < s)) := by
      intro s hs
      have hsW : s ∈ W := (List.dropLast_sublist W).subset hs
      have hsT : s ∈ times := hWsub.subset hsW
      obtain ⟨hsa, _, _⟩ := hmem s hsW
      have hpw2 : (W.dropLast ++ [tl]).Pairwise (· < ·) := by
        rw [hsplitW]
        exact hWpw
      have hslt : s < tl :=
        (List.pairwise_append.mp hpw2).2.2 s hs tl (List.mem_singleton.mpr rfl)
      have hwin : tl - w < s := by linarith
      exact List.mem_filter.mpr ⟨hsT, by simp [hslt, hwin]⟩
    have hndd : W.dropLast.Nodup := (List.dropLast_sublist W).nodup hWnd
    have hle : W.dropLast.length ≤
        (times.filter (fun s => decide (s < tl) && decide (tl - w < s))).length :=
      (List.subperm_of_subset hndd hsub2).length_le
    have hlen : W.length = W.dropLast.length + 1 := by
      conv_lhs => rw [← hsplitW]
      simp
    omega

/-- The flags a burst entirely inside one window receives: the `n`-th
request of the burst (`n` counted from the sorted-set size it meets) is
allowed iff `n < limit`. -/
def expectedFlags (limit : Nat) : Nat → List ℚ → List (ℚ × Bool)
  | _, [] => []
  | n, t :: ts => (t, decide (n < limit)) :: expectedFlags limit (n + 1) ts

theorem processRequests_burst (limit : Nat) (a : ℚ) (ha : 0 ≤ a) :
    ∀ (times : List ℚ) (z : ZSet),
      (∀ s ∈ z, 0 < s ∧ a < s) →
      (∀ t ∈ times, a < t ∧ t ≤ a + 60) →
      (∀ s ∈ z, ∀ t ∈ times, s < t) →
      List.Pairwise (· < ·) times →
      (processRequests z times limit 60).1 = expectedFlags limit z.length times := by
  intro times
  induction times with
  | nil =>
    intro z _ _ _ _
    rfl
  | cons t ts ih =>
    intro z hz hw hzt hpw
    have hta : a < t := (hw t (List.mem_cons_self t ts)).1
    have htb : t ≤ a + 60 := (hw t (List.mem_cons_self t ts)).2
    have hz1 : zremrangebyscore z 0 (t - 60) = z := by
      rw [zremrangebyscore, List.filter_eq_self]
      intro s hs
      have h0 := (hz s hs).1
      have hsa := (hz s hs).2
      have hns : ¬(s ≤ t - 60) := by linarith
      simp [hns]
    have htnm : t ∉ z := fun hmem =>
      absurd (hzt t hmem t (List.mem_cons_self t ts)) (lt_irrefl t)
    have hcheck : check_rate_limit z t limit 60
        = (if limit ≤ z.length then (⟨false, 0, t + 60⟩, z ++ [t])
           else (⟨true, ((limit : Int) - z.length - 1).toNat, t + 60⟩,
             z ++ [t])) := by
      rw [check_rate_limit, hz1, zadd, if_neg htnm]
    have htail : (processRequests (z ++ [t]) ts limit 60).1
        = expectedFlags limit (z.length + 1) ts := by
      have h := ih (z ++ [t])
        (by
          intro s hs
          rcases List.mem_append.mp hs with h1 | h1
          · exact hz s h1
          · rw [List.mem_singleton.mp h1]
            exact ⟨by linarith, hta⟩)
        (fun u hu => hw u (List.mem_cons_of_mem _ hu))
        (by
          intro s hs u hu
          rcases List.mem_append.mp hs with h1 | h1
          · exact hzt s h1 u (List.mem_cons_of_mem _ hu)
          · rw [List.mem_singleton.mp h1]
            exact (List.pairwise_cons.mp hpw).1 u hu)
        (List.pairwise_cons.mp hpw).2
      rwa [List.length_append, List.length_singleton] at h
    rw [processRequests]
    by_cases hcl : limit ≤ z.length
    · rw [expectedFlags]
      have hf : decide (z.length < limit) = false := by
        rw [decide_eq_false_iff_not]
        omega
      rw [hf]
      simp only [hcheck, if_pos hcl]
      exact congrArg₂ _ rfl htail
    · rw [expectedFlags]
      have hf : decide (z.length < limit) = true := by
        rw [decide_eq_true_eq]
        omega
      rw [hf]
      simp only [hcheck, if_neg hcl]
      exact congrArg₂ _ rfl htail

/-- C7: (i) over any strictly increasing positive request stream on one
identifier and path class, at most `limit` requests inside any sliding
window `(a, a + 60]` are allowed through; (ii) a burst lying entirely in
one window gets exactly its first `limit` requests accepted and the rest
rejected; (iii) a request that meets a window already holding `limit`
entries is answered 429 with `Retry-After = 60` and
`X-RateLimit-Remaining = 0`; (iv) the path-class limits are default 100,
webhooks/telegram/whatsapp 200, authenticated 1000. -/
theorem rate_limit_sliding_window (limit : Nat) (times : List ℚ) (a : ℚ)
    (hpos : ∀ t ∈ times, 0 < t) (hsorted : List.Pairwise (· < ·) times) :
    ((processRequests [] times limit 60).1.filter
        (fun r => decide (a < r.1) && decide (r.1 ≤ a + 60) && r.2)).length
      ≤ limit
      ∧ ((0 ≤ a ∧ ∀ t ∈ times, a < t ∧ t ≤ a + 60) →
          (processRequests [] times limit 60).1 = expectedFlags limit 0 times)
      ∧ (∀ z now appStatus,
          limit ≤ (zremrangebyscore z 0 (now - 60)).length →
          (rl_dispatch z now limit 60 appStatus).1
            = ⟨429, limit, 0, now + 60, some 60⟩)
      ∧ get_rate_limit false "/api/v1/messages" 100 = 100
      ∧ (∀ p, get_rate_limit true p 100 = 1000)
      ∧ get_rate_limit false "/api/v1/telegram/webhook/tok1" 100 = 200 := by
  have hspec := processRequests_spec limit 60 (by norm_num) times []
    (by simpa using hsorted) (by simpa using hpos)
  have h0 : stateAfter ([] : List ℚ) 60 = ([] : ZSet) := rfl
  rw [h0] at hspec
  simp only [List.nil_append] at hspec
  refine ⟨?_, ?_, ?_, ?_, ?_, ?_⟩
  · rw [hspec, List.filter_map, List.length_map]
    apply nodup_window_count_le limit times _ a 60 hsorted (List.filter_sublist _)
    intro t ht
    have hq := (List.mem_filter.mp ht).2
    simp only [Function.comp, Bool.and_eq_true, decide_eq_true_eq] at hq
    exact ⟨hq.1.1, hq.1.2, hq.2⟩
  · rintro ⟨ha, hwin⟩
    have h := processRequests_burst limit a ha times []
      (by intro s hs; exact absurd hs (List.not_mem_nil s))
      hwin
      (by intro s hs; exact absurd hs (List.not_mem_nil s))
      hsorted
    simpa using h
  · intro z now appStatus hge
    have hc : check_rate_limit z now limit 60
        = (⟨false, 0, now + 60⟩, zadd (zremrangebyscore z 0 (now - 60)) now) := by
      rw [check_rate_limit, if_pos hge]
    simp [rl_dispatch, hc]
  · decide
  · intro p
    rfl
  · decide

/-- 101 requests from one unauthenticated IP within one second
(timestamps 1000.00, 1000.01, …, 1001.00). -/
def times101 : List ℚ :=
  (List.range 101).map (fun (k : Nat) => (1000 : ℚ) + (k : ℚ) / 100)

theorem times101_mem (t : ℚ) (ht : t ∈ times101) :
    999 < t ∧ t ≤ 999 + 60 ∧ 0 < t := by
  rw [times101] at ht
  obtain ⟨k, hk, rfl⟩ := List.mem_map.mp ht
  have hk2 : k < 101 := List.mem_range.mp hk
  have h0 : (0 : ℚ) ≤ (k : ℚ) / 100 := by positivity
  have h1 : (k : ℚ) / 100 ≤ 1 := by
    rw [div_le_one (by norm_num : (0:ℚ) < 100)]
    have : (k : ℚ) ≤ 100 := by exact_mod_cast Nat.lt_succ_iff.mp hk2
    linarith
  exact ⟨by linarith, by linarith, by linarith⟩

theorem times101_sorted : List.Pairwise (· < ·) times101 := by
  rw [times101]
  refine List.Pairwise.map _ (fun a b hab => ?_) (List.pairwise_lt_range 101)
  have hq : (a : ℚ) < (b : ℚ) := by exact_mod_cast hab
  have hdiv : (a : ℚ) / 100 < (b : ℚ) / 100 := by linarith
  linarith

theorem times101_length : times101.length = 101 := by
  rw [times101, List.length_map, List.length_range]

theorem expectedFlags_count_true (limit : Nat) (ts : List ℚ) :
    ∀ n : Nat, ((expectedFlags limit n ts).filter (fun r => r.2)).length
      = min ts.length (limit - n) := by
  induction ts with
  | nil =>
    intro n
    simp [expectedFlags]
  | cons t ts ih =>
    intro n
    rw [expectedFlags]
    cases hd : decide (n < limit) with
    | false =>
      have hnl : ¬(n < limit) := of_decide_eq_false hd
      simp [ih]
      omega
    | true =>
      have hl : n < limit := of_decide_eq_true hd
      simp [ih]
      omega

theorem expectedFlags_count_false (limit : Nat) (ts : List ℚ) :
    ∀ n : Nat, ((expectedFlags limit n ts).filter (fun r => !r.2)).length
      = ts.length - min ts.length (limit - n) := by
  induction ts with
  | nil =>
    intro n
    simp [expectedFlags]
  | cons t ts ih =>
    intro n
    rw [expectedFlags]
    cases hd : decide (n < limit) with
    | false =>
      have hnl : ¬(n < limit) := of_decide_eq_false hd
      simp [ih]
      omega
    | true =>
      have hl : n < limit := of_decide_eq_true hd
      simp [ih]
      omega

theorem times101_zrem : zremrangebyscore times101 0 (1001 - 60) = times101 := by
  rw [zremrangebyscore, List.filter_eq_self]
  intro s hs
  have h := times101_mem s hs
  have hn : ¬(s ≤ 1001 - 60) := by
    have := h.1
    intro hc
    linarith
  simp [hn]

/-- C7, witness: of the 101 in-window requests against the default limit
100, exactly 100 are allowed and 1 is rejected; a rejected request at a
full window is answered 429 / `Retry-After: 60` /
`X-RateLimit-Remaining: 0`. -/
theorem rate_limit_sliding_window_witness :
    ((processRequests [] times101 100 60).1.filter (fun r => r.2)).length = 100
      ∧ ((processRequests [] times101 100 60).1.filter (fun r => !r.2)).length = 1
      ∧ (rl_dispatch times101 1001 100 60 200).1
          = ⟨429, 100, 0, 1001 + 60, some 60⟩ := by
  have hmain := rate_limit_sliding_window 100 times101 999
    (fun t ht => (times101_mem t ht).2.2) times101_sorted
  have hburst := hmain.2.1
    ⟨by norm_num, fun t ht => ⟨(times101_mem t ht).1, (times101_mem t ht).2.1⟩⟩
  refine ⟨?_, ?_, ?_⟩
  · rw [hburst, expectedFlags_count_true, times101_length]
    omega
  · rw [hburst, expectedFlags_count_false, times101_length]
    omega
  · apply hmain.2.2.1 times101 1001 200
    rw [times101_zrem, times101_length]
    norm_num

/-! ## Secret vault (shared/utils/crypto.py)

`CryptoService` wraps `cryptography.fernet.Fernet` (AES-128-CBC with
PKCS7 padding inside an authenticated token `0x80 ‖ timestamp(8) ‖ IV(16)
‖ ciphertext ‖ HMAC-SHA256(32)`).  The token layout, CBC mode and padding
are modelled concretely from the published Fernet format; the AES block
permutation and the HMAC compression themselves are the external library's
primitives, abstracted as a block cipher with its inverse and a 32-byte
tag function.  The url-safe base64 armor and the UTF-8 `encode`/`decode`
are bijections between byte strings and are elided, so plaintexts and
tokens are byte lists. -/

/-- A byte string. -/
abbrev Bytes := List Nat

/-- Byte-wise xor. -/
def xorBytes (a b : Bytes) : Bytes := List.zipWith (· ^^^ ·) a b

theorem xorBytes_length (a b : Bytes) :
    (xorBytes a b).length = min a.length b.length := by
  simp [xorBytes]

theorem xorBytes_cancel :
    ∀ (p c : Bytes), p.length ≤ c.length → xorBytes (xorBytes p c) c = p := by
  intro p
  induction p with
  | nil =>
    intro c _
    rfl
  | cons x xs ih =>
    intro c hlen
    cases c with
    | nil => simp at hlen
    | cons y ys =>
      simp only [xorBytes, List.zipWith_cons_cons] at *
      simp only [List.length_cons] at hlen
      rw [Nat.xor_cancel_right y x]
      rw [ih ys (by omega)]

/-- PKCS7 padding to 16-byte blocks: append `n = 16 - len % 16` copies of
the byte `n`. -/
def pad16 (pt : Bytes) : Bytes :=
  pt ++ List.replicate (16 - pt.length % 16) (16 - pt.length % 16)

/-- PKCS7 unpadding: read the final byte `n` and drop the last `n` bytes
(the library additionally rejects ill-formed padding, which a self-produced
token never has). -/
def unpad16 (b : Bytes) : Bytes :=
  match b.getLast? with
  | none => []
  | some n => b.take (b.length - n)

theorem pad16_length_dvd (pt : Bytes) : 16 ∣ (pad16 pt).length := by
  simp only [pad16, List.length_append, List.length_replicate]
  omega

theorem unpad16_pad16 (pt : Bytes) : unpad16 (pad16 pt) = pt := by
  unfold pad16 unpad16
  have hmod : pt.length % 16 < 16 := Nat.mod_lt _ (by norm_num)
  rcases hsplit : 16 - pt.length % 16 with _ | m
  · omega
  · have hrep : List.replicate (m + 1) (m + 1)
        = List.replicate m (m + 1) ++ [m + 1] := List.replicate_succ' _ _
    have hgl : (pt ++ List.replicate (m + 1) (m + 1)).getLast? = some (m + 1) := by
      rw [hrep, ← List.append_assoc, List.getLast?_concat]
    rw [hgl]
    show (pt ++ List.replicate (m + 1) (m + 1)).take
        ((pt ++ List.replicate (m + 1) (m + 1)).length - (m + 1)) = pt
    have hlen : (pt ++ List.replicate (m + 1) (m + 1)).length - (m + 1)
        = pt.length := by
      rw [List.length_append, List.length_replicate]
      omega
    rw [hlen]
    exact List.take_left pt _

/-- Split a byte string into 16-byte blocks (last one possibly short; the
inputs used are always padded to a multiple of 16). -/
def chunk16 (l : Bytes) : List Bytes :=
  if h : l = [] then []
  else l.take 16 :: chunk16 (l.drop 16)
termination_by l.length
decreasing_by
  simp only [List.length_drop]
  have hpos : 0 < l.length := List.length_pos.mpr h
  omega

theorem join_chunk16_aux :
    ∀ (N : Nat) (l : Bytes), l.length ≤ N → (chunk16 l).flatten = l := by
  intro N
  induction N with
  | zero =>
    intro l hl
    have h0 : l = [] := List.length_eq_zero.mp (Nat.le_zero.mp hl)
    rw [h0, chunk16]
    simp
  | succ N ih =>
    intro l hl
    rw [chunk16]
    split
    · simp_all
    · rename_i h
      rw [List.flatten_cons]
      rw [ih (l.drop 16) (by simp only [List.length_drop]; omega)]
      exact List.take_append_drop 16 l

theorem join_chunk16 (l : Bytes) : (chunk16 l).flatten = l :=
  join_chunk16_aux l.length l le_rfl

theorem chunk16_blocks_len_aux :
    ∀ (N : Nat) (l : Bytes), l.length ≤ N → 16 ∣ l.length →
      ∀ b ∈ chunk16 l, b.length = 16 := by
  intro N
  induction N with
  | zero =>
    intro l hl _ b hb
    have h0 : l = [] := List.length_eq_zero.mp (Nat.le_zero.mp hl)
    rw [h0, chunk16] at hb
    simp at hb
  | succ N ih =>
    intro l hl hdvd b hb
    rw [chunk16] at hb
    split at hb
    · simp at hb
    · rename_i h
      have hpos : 0 < l.length := List.length_pos.mpr h
      have h16 : 16 ≤ l.length := Nat.le_of_dvd hpos hdvd
      rcases List.mem_cons.mp hb with rfl | hb2
      · simp [List.length_take]
        omega
      · exact ih (l.drop 16) (by simp only [List.length_drop]; omega)
          (by simp only [List.length_drop]; omega) b hb2

theorem chunk16_blocks_len (l : Bytes) (hdvd : 16 ∣ l.length) :
    ∀ b ∈ chunk16 l, b.length = 16 :=
  chunk16_blocks_len_aux l.length l le_rfl hdvd

theorem chunk16_join (bs : List Bytes) (h : ∀ b ∈ bs, b.length = 16) :
    chunk16 bs.flatten = bs := by
  induction bs with
  | nil =>
    rw [List.flatten_nil, chunk16]
    rfl
  | cons b rest ih =>
    rw [List.flatten_cons, chunk16]
    have hb : b.length = 16 := h b (List.mem_cons_self b rest)
    have hne : b ++ rest.flatten ≠ [] := by
      intro h0
      have := congrArg List.length h0
      simp [hb] at this
    rw [dif_neg hne]
    rw [List.take_left' hb, List.drop_left' hb]
    rw [ih (fun q hq => h q (List.mem_cons_of_mem _ hq))]

/-- AES-CBC encryption over a block list: `cᵢ = E(pᵢ ⊕ cᵢ₋₁)`, `c₀ = IV`. -/
def cbcEncBlocks (E : Bytes → Bytes) (prev : Bytes) : List Bytes → List Bytes
  | [] => []
  | p :: ps =>
    E (xorBytes p prev) :: cbcEncBlocks E (E (xorBytes p prev)) ps

/-- AES-CBC decryption: `pᵢ = D(cᵢ) ⊕ cᵢ₋₁`. -/
def cbcDecBlocks (D : Bytes → Bytes) (prev : Bytes) : List Bytes → List Bytes
  | [] => []
  | c :: cs => xorBytes (D c) prev :: cbcDecBlocks D c cs

theorem cbcDec_cbcEnc (E D : Bytes → Bytes) (hDE : ∀ b, D (E b) = b)
    (hElen : ∀ b, (E b).length = b.length) :
    ∀ (ps : List Bytes) (prev : Bytes), prev.length = 16 →
      (∀ p ∈ ps, p.length = 16) →
      cbcDecBlocks D prev (cbcEncBlocks E prev ps) = ps := by
  intro ps
  induction ps with
  | nil =>
    intro prev _ _
    rfl
  | cons p ps ih =>
    intro prev hprev hall
    have hp : p.length = 16 := hall p (List.mem_cons_self p ps)
    have hxlen : (xorBytes p prev).length = 16 := by
      rw [xorBytes_length]
      omega
    rw [cbcEncBlocks, cbcDecBlocks]
    congr 1
    · rw [hDE, xorBytes_cancel p prev (by omega)]
    · exact ih (E (xorBytes p prev)) (by rw [hElen, hxlen])
        (fun q hq => hall q (List.mem_cons_of_mem _ hq))

theorem cbcEnc_blocks_len (E : Bytes → Bytes)
    (hElen : ∀ b, (E b).length = b.length) :
    ∀ (ps : List Bytes) (prev : Bytes), prev.length = 16 →
      (∀ p ∈ ps, p.length = 16) →
      ∀ c ∈ cbcEncBlocks E prev ps, c.length = 16 := by
  intro ps
  induction ps with
  | nil =>
    intro prev _ _ c hc
    simp [cbcEncBlocks] at hc
  | cons p ps ih =>
    intro prev hprev hall c hc
    have hp : p.length = 16 := hall p (List.mem_cons_self p ps)
    have hclen : (E (xorBytes p prev)).length = 16 := by
      rw [hElen, xorBytes_length]
      omega
    rw [cbcEncBlocks] at hc
    rcases List.mem_cons.mp hc with rfl | hc2
    · exact hclen
    · exact ih (E (xorBytes p prev)) hclen
        (fun q hq => hall q (List.mem_cons_of_mem _ hq)) c hc2

/-- The primitives Fernet takes from the `cryptography` library: the
AES-128 block permutation under the PBKDF2-derived key (a length-preserving
bijection on 16-byte blocks) and HMAC-SHA256 under the signing key (an
arbitrary 32-byte tag function). -/
structure FernetPrims where
  aesEnc : Bytes → Bytes
  aesDec : Bytes → Bytes
  aesDec_enc : ∀ b, aesDec (aesEnc b) = b
  aesEnc_length : ∀ b, (aesEnc b).length = b.length
  hmac : Bytes → Bytes
  hmac_length : ∀ m, (hmac m).length = 32

/-- `Fernet.encrypt`: token `0x80 ‖ timestamp(8) ‖ IV(16) ‖ CBC(pad(pt)) ‖
HMAC(all preceding bytes)`; the IV is drawn fresh per call and the
timestamp from the clock, both passed explicitly here. -/
def fernetEncrypt (P : FernetPrims) (ts iv pt : Bytes) : Bytes :=
  let ct := (cbcEncBlocks P.aesEnc iv (chunk16 (pad16 pt))).flatten
  let body := 0x80 :: (ts ++ iv ++ ct)
  body ++ P.hmac body

/-- `Fernet.decrypt`: split off the 32-byte tag, recompute and compare the
HMAC, check the version byte, split timestamp/IV/ciphertext, CBC-decrypt
and unpad; any failure raises `InvalidToken`, modelled as `none`. -/
def fernetDecrypt (P : FernetPrims) (token : Bytes) : Option Bytes :=
  let body := token.take (token.length - 32)
  let tag := token.drop (token.length - 32)
  if tag ≠ P.hmac body then none
  else
    match body with
    | [] => none
    | v :: rest =>
      if v ≠ 0x80 then none
      else
        let iv := (rest.drop 8).take 16
        let ct := (rest.drop 8).drop 16
        some (unpad16 ((cbcDecBlocks P.aesDec iv (chunk16 ct)).flatten))

theorem fernetDecrypt_encrypt (P : FernetPrims) (ts iv pt : Bytes)
    (hts : ts.length = 8) (hiv : iv.length = 16) :
    fernetDecrypt P (fernetEncrypt P ts iv pt) = some pt := by
  have hblocks : ∀ b ∈ chunk16 (pad16 pt), b.length = 16 :=
    chunk16_blocks_len (pad16 pt) (pad16_length_dvd pt)
  have hctblocks : ∀ c ∈ cbcEncBlocks P.aesEnc iv (chunk16 (pad16 pt)),
      c.length = 16 :=
    cbcEnc_blocks_len P.aesEnc P.aesEnc_length (chunk16 (pad16 pt)) iv hiv hblocks
  rw [fernetEncrypt, fernetDecrypt]
  set ct := (cbcEncBlocks P.aesEnc iv (chunk16 (pad16 pt))).flatten with hct
  set body := 0x80 :: (ts ++ iv ++ ct) with hbody
  have hlen : (body ++ P.hmac body).length - 32 = body.length := by
    rw [List.length_append, P.hmac_length]
    omega
  have htake : (body ++ P.hmac body).take ((body ++ P.hmac body).length - 32)
      = body := by
    rw [hlen]
    exact List.take_left body _
  have hdrop : (body ++ P.hmac body).drop ((body ++ P.hmac body).length - 32)
      = P.hmac body := by
    rw [hlen]
    exact List.drop_left body _
  rw [htake, hdrop]
  rw [if_neg (by simp)]
  rw [hbody]
  show some (unpad16 ((cbcDecBlocks P.aesDec
      (((ts ++ iv ++ ct).drop 8).take 16)
      (chunk16 (((ts ++ iv ++ ct).drop 8).drop 16))).flatten)) = some pt
  have hrest8 : ((ts ++ iv ++ ct).drop 8) = iv ++ ct := by
    rw [List.append_assoc]
    exact List.drop_left' hts
  rw [hrest8, List.take_left' hiv, List.drop_left' hiv]
  rw [hct, chunk16_join _ hctblocks]
  rw [cbcDec_cbcEnc P.aesEnc P.aesDec P.aesDec_enc P.aesEnc_length
    (chunk16 (pad16 pt)) iv hiv hblocks]
  rw [join_chunk16, unpad16_pad16]

/-- `CryptoService.encrypt` from shared/utils/crypto.py: the empty string
maps to the empty string, anything else to its Fernet token (the token's
url-safe base64 text armor, a bijection, is elided; IV and timestamp are
the library's random/clock inputs, passed explicitly). -/
def CryptoService.encrypt (P : FernetPrims) (ts iv pt : Bytes) : Bytes :=
  if pt = [] then [] else fernetEncrypt P ts iv pt

/-- `CryptoService.decrypt`: the empty string maps to the empty string;
otherwise Fernet decryption, whose `InvalidToken` is re-raised (`none`). -/
def CryptoService.decrypt (P : FernetPrims) (ciphertext : Bytes) :
    Option Bytes :=
  if ciphertext = [] then some [] else fernetDecrypt P ciphertext

/-- C5: encryption round-trip — for every plaintext, decrypting the string
`CryptoService.encrypt` produced under the same master key returns exactly
the plaintext (for any 8-byte timestamp and 16-byte IV the library
supplies, and any block cipher/tag primitives satisfying the AES
inverse-and-length contract). -/
theorem decrypt_encrypt (P : FernetPrims) (ts iv pt : Bytes)
    (hts : ts.length = 8) (hiv : iv.length = 16) :
    CryptoService.decrypt P (CryptoService.encrypt P ts iv pt) = some pt := by
  by_cases h : pt = []
  · simp [CryptoService.encrypt, CryptoService.decrypt, h]
  · rw [CryptoService.encrypt, if_neg h, CryptoService.decrypt]
    have htok : fernetEncrypt P ts iv pt ≠ [] := by
      rw [fernetEncrypt]
      simp
    rw [if_neg htok]
    exact fernetDecrypt_encrypt P ts iv pt hts hiv

/-- A concrete instantiation of the library primitives: block reversal as
the (self-inverse, length-preserving) block permutation and a constant
32-byte tag. -/
def revPrims : FernetPrims :=
  { aesEnc := List.reverse
    aesDec := List.reverse
    aesDec_enc := List.reverse_reverse
    aesEnc_length := List.length_reverse
    hmac := fun _ => List.replicate 32 0
    hmac_length := fun _ => List.length_replicate 32 0 }

/-- C5, witness: the round trip evaluated on the bytes of `"hi"` with a
concrete timestamp and IV. -/
theorem decrypt_encrypt_witness :
    CryptoService.decrypt revPrims
        (CryptoService.encrypt revPrims (List.replicate 8 0)
          (List.replicate 16 1) [104, 105]) = some [104, 105] :=
  decrypt_encrypt revPrims (List.replicate 8 0) (List.replicate 16 1)
    [104, 105] rfl rfl

end AIAdmin
